import Mathlib

/-! Shallow embedding of `src/RangeRiteFastSample.ino` (Anabit RangeRite fast
sampling sketch, 18-bit build): build-time constants, the single-precision
arithmetic of the code-to-volts conversion modelled by exact rationals with
an explicit round-to-nearest-even step, the range multiplier table, and a
state-machine model of the SPI / clock / ready-pin environment for the
configuration, capture and decode routines. -/

set_option maxRecDepth 100000

namespace RangeRite

/-- `#define ADSX_BITS 18` (18-bit build, ADS869x family). -/
def ADSX_BITS : ℕ := 18

/-- `#define SAMPLE_COUNT 256` (readings buffer size). -/
def SAMPLE_COUNT : ℕ := 256

/-- `#define ADSX_CODE_SHIFT 14` (the `ADSX_BITS == 18` branch). -/
def ADSX_CODE_SHIFT : ℕ := 14

/-- `#define ADSX_CODE_MASK 0x3FFFFu` (the `ADSX_BITS == 18` branch). -/
def ADSX_CODE_MASK : ℕ := 0x3FFFF

/-- `#define ADSX_REG_RANGE_SEL 0x14`. -/
def ADSX_REG_RANGE_SEL : ℕ := 0x14

/-- `#define ADSX_INTREF_ENABLE 0x0000` (internal 4.096 V reference ON). -/
def ADSX_INTREF_ENABLE : ℕ := 0x0000

/-! ## Single-precision arithmetic model

C `float` values are modelled by the exact rational number they represent;
every arithmetic operation is exact rational arithmetic followed by an
explicit round-to-nearest (ties-to-even) step at 24 significand bits. The
exponent is unbounded, which is faithful to IEEE-754 binary32 whenever no
overflow and no subnormal occurs; every value the sketch computes has
magnitude between `2.56 / 2 ^ 18` and `24.576`, far inside the normal range.

Rational arithmetic is spelled out on numerators and denominators via
`mkRat` so that every definition evaluates inside the kernel. -/

/-- Exact product of two rationals. -/
def qmul (a b : ℚ) : ℚ := mkRat (a.num * b.num) (a.den * b.den)

/-- Exact sum of two rationals. -/
def qadd (a b : ℚ) : ℚ := mkRat (a.num * (b.den : ℤ) + b.num * (a.den : ℤ)) (a.den * b.den)

/-- Exact negation of a rational. -/
def qneg (a : ℚ) : ℚ := mkRat (-a.num) a.den

/-- Exact difference of two rationals. -/
def qsub (a b : ℚ) : ℚ := qadd a (qneg b)

/-- Exact quotient of two rationals (sign moved into the numerator). -/
def qdiv (a b : ℚ) : ℚ :=
  mkRat ((if b.num < 0 then -1 else 1) * a.num * (b.den : ℤ)) (a.den * b.num.natAbs)

/-- Absolute value on `ℚ`, written explicitly so the kernel evaluates it. -/
def qabs (q : ℚ) : ℚ := if q < 0 then qneg q else q

/-- Floor of log2 with explicit fuel (structural recursion, so the kernel
can evaluate it); `log2F f n = ⌊log2 n⌋` whenever `f ≥ n ≥ 1`. -/
def log2F : ℕ → ℕ → ℕ
  | 0, _ => 0
  | f + 1, n => if n ≤ 1 then 0 else log2F f (n / 2) + 1

/-- `⌊log2 n⌋` for `n ≥ 1` (and `0` at `0`). -/
def natLog2 (n : ℕ) : ℕ := log2F n n

/-- `2 ^ k` as a rational, for an integer exponent. -/
def qpow2 (k : ℤ) : ℚ :=
  if 0 ≤ k then ((2 ^ k.toNat : ℕ) : ℚ) else mkRat 1 (2 ^ (-k).toNat)

/-- `⌊log2 q⌋` for a positive rational: candidate from the integer logs of
numerator and denominator, corrected by direct comparison against
neighbouring powers of two. -/
def qfloorLog2 (q : ℚ) : ℤ :=
  let k : ℤ := (natLog2 q.num.natAbs : ℤ) - (natLog2 q.den : ℤ)
  if q < qpow2 (k - 1) then k - 2
  else if q < qpow2 k then k - 1
  else if q < qpow2 (k + 1) then k
  else k + 1

/-- Round a nonnegative rational to the nearest integer, ties to even. -/
def rndHalfEven (x : ℚ) : ℕ :=
  let n := x.num.toNat
  let d := x.den
  let q := n / d
  let r := n % d
  if 2 * r < d then q
  else if d < 2 * r then q + 1
  else if q % 2 = 0 then q else q + 1

/-- Round a rational to the nearest value with a `p`-bit significand
(round-to-nearest, ties-to-even), returned as the exact rational it
represents. -/
def fround (p : ℕ) (q : ℚ) : ℚ :=
  if q = 0 then 0
  else
    let a := qabs q
    let e := qfloorLog2 a
    let s := qpow2 ((p : ℤ) - 1 - e)
    let m := rndHalfEven (qmul a s)
    if q < 0 then qneg (qdiv ((m : ℕ) : ℚ) s) else qdiv ((m : ℕ) : ℚ) s

/-- Single-precision (`float`) rounding: 24-bit significand. -/
def f32 (q : ℚ) : ℚ := fround 24 q

/-- `float` addition. -/
def f32add (a b : ℚ) : ℚ := f32 (qadd a b)

/-- `float` subtraction. -/
def f32sub (a b : ℚ) : ℚ := f32 (qsub a b)

/-- `float` multiplication. -/
def f32mul (a b : ℚ) : ℚ := f32 (qmul a b)

/-- `float` division. -/
def f32div (a b : ℚ) : ℚ := f32 (qdiv a b)

/-- `#define VOLT_REF (float)4.096`: the decimal literal is a C `double`,
rounded to `float` by the cast (the double rounding is modelled exactly). -/
def VOLT_REF : ℚ := f32 (fround 53 (mkRat 4096 1000))

/-! ## Range table and code-to-volts conversion -/

/-- `#define ADSX_RANGE_BIPOLAR_3X 0x0`. -/
def ADSX_RANGE_BIPOLAR_3X : ℕ := 0x0

/-- `#define ADSX_RANGE_BIPOLAR_2P5X 0x1`. -/
def ADSX_RANGE_BIPOLAR_2P5X : ℕ := 0x1

/-- `#define ADSX_RANGE_BIPOLAR_1P5X 0x2`. -/
def ADSX_RANGE_BIPOLAR_1P5X : ℕ := 0x2

/-- `#define ADSX_RANGE_BIPOLAR_1P25X 0x3`. -/
def ADSX_RANGE_BIPOLAR_1P25X : ℕ := 0x3

/-- `#define ADSX_RANGE_BIPOLAR_0P625X 0x4`. -/
def ADSX_RANGE_BIPOLAR_0P625X : ℕ := 0x4

/-- `#define ADSX_RANGE_UNIPOLAR_3X 0x8`. -/
def ADSX_RANGE_UNIPOLAR_3X : ℕ := 0x8

/-- `#define ADSX_RANGE_UNIPOLAR_2P5X 0x9`. -/
def ADSX_RANGE_UNIPOLAR_2P5X : ℕ := 0x9

/-- `#define ADSX_RANGE_UNIPOLAR_1P5X 0xA`. -/
def ADSX_RANGE_UNIPOLAR_1P5X : ℕ := 0xA

/-- `#define ADSX_RANGE_UNIPOLAR_1P25X 0xB`. -/
def ADSX_RANGE_UNIPOLAR_1P25X : ℕ := 0xB

/-- `adsxRangeMultiplier(code, isBipolar)`: multiplier and bipolar flag for a
range code (`switch (code & 0xF)` with a `(1.25f, unipolar)` default); the C
out-parameter `isBipolar` is returned as the second component. The float
literals `3.0f`, `2.5f`, `1.5f`, `1.25f`, `0.625f` are exactly representable
in binary32, so they appear as their rational values. -/
def adsxRangeMultiplier (code : ℕ) : ℚ × Bool :=
  match code &&& 0xF with
  | 0x0 => (mkRat 3 1, true)
  | 0x1 => (mkRat 5 2, true)
  | 0x2 => (mkRat 3 2, true)
  | 0x3 => (mkRat 5 4, true)
  | 0x4 => (mkRat 5 8, true)
  | 0x8 => (mkRat 3 1, false)
  | 0x9 => (mkRat 5 2, false)
  | 0xA => (mkRat 3 2, false)
  | 0xB => (mkRat 5 4, false)
  | _ => (mkRat 5 4, false)

/-- `adsxCodeToVolts`, parameterised by the global `vRange` (first argument):
clamp the code to `ADSX_CODE_MASK`, look up the multiplier, then compute
`PFS = mult * vref`, `NFS = bipolar ? -PFS : 0`, `FSR = PFS - NFS`,
`LSB = FSR / (float)(1UL << ADSX_BITS)` and return `NFS + (float)codeN * LSB`,
every operation in single precision. -/
def adsxCodeToVolts (vRange codeN : ℕ) : ℚ :=
  let c := if codeN > ADSX_CODE_MASK then ADSX_CODE_MASK else codeN
  let mb := adsxRangeMultiplier vRange
  let vref := VOLT_REF
  let PFS := f32mul mb.1 vref
  let NFS := if mb.2 then qneg PFS else 0
  let FSR := f32sub PFS NFS
  let LSB := f32div FSR (((1 <<< ADSX_BITS : ℕ) : ℚ))
  f32add NFS (f32mul (f32 ((c : ℕ) : ℚ)) LSB)

/-! Specification-side definitions, written from the words of the claims
about the Code Converter ("PFS = multiplier * 4.096", "NFS = -PFS if the
range is bipolar and 0 otherwise", "FSR = PFS - NFS", "LSB = FSR /
2^ADSX_BITS", in single-precision float arithmetic), to be compared with
`adsxCodeToVolts`. -/

/-- Spec formula: positive full scale `PFS = multiplier * 4.096` (single
precision). -/
def PFSspec (r : ℕ) : ℚ := f32mul (adsxRangeMultiplier r).1 VOLT_REF

/-- Spec formula: negative full scale, `-PFS` if bipolar else `0` (float
negation is exact). -/
def NFSspec (r : ℕ) : ℚ := if (adsxRangeMultiplier r).2 then qneg (PFSspec r) else 0

/-- Spec formula: full-scale range `FSR = PFS - NFS` (single precision). -/
def FSRspec (r : ℕ) : ℚ := f32sub (PFSspec r) (NFSspec r)

/-- Spec formula: `LSB = FSR / 2^ADSX_BITS` (single precision). -/
def LSBspec (r : ℕ) : ℚ := f32div (FSRspec r) (((1 <<< ADSX_BITS : ℕ) : ℚ))

/-- Modelled from the claim's documented table: selectors 0x0-0x4 bipolar
with multipliers 3.0, 2.5, 1.5, 1.25, 0.625; selectors 0x8-0xB unipolar
with 3.0, 2.5, 1.5, 1.25; every other 4-bit value falls back to
(1.25, unipolar). To be compared with `adsxRangeMultiplier`. -/
def rangeTableSpec (code : ℕ) : ℚ × Bool :=
  if code &&& 0xF = 0x0 then (mkRat 3 1, true)
  else if code &&& 0xF = 0x1 then (mkRat 5 2, true)
  else if code &&& 0xF = 0x2 then (mkRat 3 2, true)
  else if code &&& 0xF = 0x3 then (mkRat 5 4, true)
  else if code &&& 0xF = 0x4 then (mkRat 5 8, true)
  else if code &&& 0xF = 0x8 then (mkRat 3 1, false)
  else if code &&& 0xF = 0x9 then (mkRat 5 2, false)
  else if code &&& 0xF = 0xA then (mkRat 3 2, false)
  else if code &&& 0xF = 0xB then (mkRat 5 4, false)
  else (mkRat 5 4, false)

/-! ## Raw-frame decoding -/

/-- One step of `decode_samples_in_place`:
`(samples[i] >> ADSX_CODE_SHIFT) & ADSX_CODE_MASK`. -/
def decodeStep (raw : ℕ) : ℕ := (raw >>> ADSX_CODE_SHIFT) &&& ADSX_CODE_MASK

/-! ## Machine model

The hardware collaborators (SPI byte exchange, microsecond clock, RVS ready
pin) are modelled by an `Env` of response streams, and the routines as
explicit state transformers over `Mach`, recording every externally visible
action in an event trace. A busy-wait `while (!rvsReady()) {}` is modelled
by the number of polls the environment makes it spin before `digitalRead`
returns HIGH (an environment where the pin never asserts makes the C code
spin forever; liveness is out of scope, so the model quantifies over the
spin counts instead). `SPI.beginTransaction` / `endTransaction` and `pinMode`
produce no bus traffic and are not modelled as events. -/

/-- One externally visible action of the sketch. -/
inductive Ev where
  | csLow : Ev
  | csHigh : Ev
  | transfer (sent recv : ℕ) : Ev
  | waitReady (polls : ℕ) : Ev
  | clock (value : ℕ) : Ev
  deriving DecidableEq, Repr

/-- The environment: response byte of the k-th `SPI.transfer`, value of the
k-th `micros()` reading, and spin count of the k-th RVS busy-wait. -/
structure Env where
  transfer : ℕ → ℕ
  micros : ℕ → ℕ
  readyAfter : ℕ → ℕ

/-- Machine state: the `samples` buffer, counters of SPI bytes exchanged,
clock readings and completed waits, the event trace, and a flag recording
whether an out-of-bounds buffer access was ever attempted. -/
structure Mach where
  samples : List ℕ
  nspi : ℕ
  nclk : ℕ
  nwait : ℕ
  trace : List Ev
  oob : Bool
  deriving DecidableEq, Repr

/-- `SPI.transfer(b)`: one full-duplex byte exchange (values truncated to
`uint8_t`). -/
def spiTransfer (env : Env) (b : ℕ) (s : Mach) : ℕ × Mach :=
  let r := env.transfer s.nspi % 256
  (r, { s with nspi := s.nspi + 1, trace := s.trace ++ [Ev.transfer (b % 256) r] })

/-- `xfer32(b0,b1,b2,b3)`: chip select low, four byte exchanges, chip select
high; returns the four received bytes packed big-endian:
`(r0 << 24) | (r1 << 16) | (r2 << 8) | r3`. -/
def xfer32 (env : Env) (b0 b1 b2 b3 : ℕ) (s : Mach) : ℕ × Mach :=
  let sa := { s with trace := s.trace ++ [Ev.csLow] }
  let p0 := spiTransfer env b0 sa
  let p1 := spiTransfer env b1 p0.2
  let p2 := spiTransfer env b2 p1.2
  let p3 := spiTransfer env b3 p2.2
  let sb := { p3.2 with trace := p3.2.trace ++ [Ev.csHigh] }
  ((p0.1 <<< 24) ||| (p1.1 <<< 16) ||| (p2.1 <<< 8) ||| p3.1, sb)

/-- `frameNOP()`: `xfer32(0, 0, 0, 0)`. -/
def frameNOP (env : Env) (s : Mach) : ℕ × Mach := xfer32 env 0 0 0 0 s

/-- `while (!rvsReady()) {}`: spin on the RVS pin; the environment supplies
the number of polls, no SPI activity occurs. -/
def waitReady (env : Env) (s : Mach) : Mach :=
  { s with nwait := s.nwait + 1, trace := s.trace ++ [Ev.waitReady (env.readyAfter s.nwait)] }

/-- One `micros()` reading (a `uint32_t`). -/
def microsRead (env : Env) (s : Mach) : ℕ × Mach :=
  let v := env.micros s.nclk % 2 ^ 32
  (v, { s with nclk := s.nclk + 1, trace := s.trace ++ [Ev.clock v] })

/-- `writeRegHWord(addr, data)`: the 4-byte write frame
`[0xD0, addr, (uint8_t)(data >> 8), (uint8_t)data]`, reply discarded;
parameters truncated to their C types (`uint8_t`, `uint16_t`). -/
def writeRegHWord (env : Env) (addr data : ℕ) (s : Mach) : Mach :=
  (xfer32 env 0xD0 (addr % 256) ((data % 2 ^ 16) >>> 8) ((data % 2 ^ 16) % 256) s).2

/-- `adsxConfigureBasic()`: write the range-select register with
`ADSX_INTREF_ENABLE | (vRange & 0x0F)`, one NOP frame to start the first
conversion, busy-wait on RVS, then one NOP frame to read and discard the
first (invalid) result. `vRange` is the `uint16_t` global. -/
def adsxConfigureBasic (env : Env) (vRange : ℕ) (s : Mach) : Mach :=
  let s1 := writeRegHWord env ADSX_REG_RANGE_SEL (ADSX_INTREF_ENABLE ||| (vRange % 2 ^ 16 &&& 0x0F)) s
  let s2 := (frameNOP env s1).2
  let s3 := waitReady env s2
  (frameNOP env s3).2

/-- `samples[i] = v` with the array bound made explicit: an index outside
the buffer sets the `oob` flag instead of writing (the C code would access
out of bounds there). -/
def storeSample (s : Mach) (i v : ℕ) : Mach :=
  if i < s.samples.length then { s with samples := s.samples.set i v }
  else { s with oob := true }

/-- The capture loop with `n` iterations remaining and next buffer index
`i`: spin on RVS, exchange one NOP frame, store the raw 32-bit word. -/
def captureLoop (env : Env) : ℕ → ℕ → Mach → Mach
  | 0, _, s => s
  | n + 1, i, s =>
    let s1 := waitReady env s
    let p := frameNOP env s1
    captureLoop env n (i + 1) (storeSample p.2 i p.1)

/-- `capture_fast(N)`: one NOP frame to start a conversion, busy-wait for
the first result, read `micros()`, run the `N`-iteration capture loop, read
`micros()` again; returns `micros() - t0` (uint32 subtraction) and the final
state. -/
def capture_fast (env : Env) (N : ℕ) (s : Mach) : ℕ × Mach :=
  let s1 := (frameNOP env s).2
  let s2 := waitReady env s1
  let p0 := microsRead env s2
  let s3 := captureLoop env N 0 p0.2
  let p1 := microsRead env s3
  ((p1.1 + (2 ^ 32 - p0.1)) % 2 ^ 32, p1.2)

/-- The decode loop with `n` iterations remaining and next index `i`:
`samples[i] = (samples[i] >> ADSX_CODE_SHIFT) & ADSX_CODE_MASK`. -/
def decodeLoop : ℕ → ℕ → Mach → Mach
  | 0, _, s => s
  | n + 1, i, s => decodeLoop n (i + 1) (storeSample s i (decodeStep (s.samples.getD i 0)))

/-- `decode_samples_in_place(N)`. -/
def decode_samples_in_place (N : ℕ) (s : Mach) : Mach := decodeLoop N 0 s

/-- Power-on model state: the zero-initialised static 256-entry buffer, no
events yet. -/
def initMach : Mach :=
  { samples := List.replicate SAMPLE_COUNT 0, nspi := 0, nclk := 0, nwait := 0,
    trace := [], oob := false }

/-- The reply the device returns to the frame whose first byte is the k-th
`SPI.transfer`, packed big-endian as `xfer32` returns it. -/
def packedResp (env : Env) (k : ℕ) : ℕ :=
  ((env.transfer k % 256) <<< 24) ||| ((env.transfer (k + 1) % 256) <<< 16) |||
    ((env.transfer (k + 2) % 256) <<< 8) ||| (env.transfer (k + 3) % 256)

/-- The event block of one 4-byte exchange with sent bytes `b0..b3`, the
first byte being the k-th `SPI.transfer`. -/
def frameEvents (env : Env) (k b0 b1 b2 b3 : ℕ) : List Ev :=
  [Ev.csLow, Ev.transfer (b0 % 256) (env.transfer k % 256),
   Ev.transfer (b1 % 256) (env.transfer (k + 1) % 256),
   Ev.transfer (b2 % 256) (env.transfer (k + 2) % 256),
   Ev.transfer (b3 % 256) (env.transfer (k + 3) % 256), Ev.csHigh]

/-- The trace of `n` capture-loop iterations starting at byte counter `k`
and wait counter `w`: each iteration is one RVS wait followed by one NOP
frame. -/
def captureLoopTrace (env : Env) (k w : ℕ) : ℕ → List Ev
  | 0 => []
  | n + 1 =>
    [Ev.waitReady (env.readyAfter w)] ++ frameEvents env k 0 0 0 0
      ++ captureLoopTrace env (k + 4) (w + 1) n

/-- A concrete environment for witnesses: the k-th SPI response byte is
`k`, the k-th clock reading is `10 * k`, every busy-wait spins once. -/
def envW : Env := { transfer := fun k => k, micros := fun k => 10 * k, readyAfter := fun _ => 1 }

/-! ## Helper lemmas: only the low 4 bits of the selector matter -/

theorem and15_and15 (r : ℕ) : (r &&& 0xF) &&& 0xF = r &&& 0xF := by
  rw [Nat.and_assoc, Nat.and_self]

theorem and15_lt16 (r : ℕ) : r &&& 0xF < 16 := Nat.lt_succ_of_le Nat.and_le_right

theorem adsxRangeMultiplier_and15 (r : ℕ) :
    adsxRangeMultiplier r = adsxRangeMultiplier (r &&& 0xF) := by
  unfold adsxRangeMultiplier
  rw [and15_and15]

theorem rangeTableSpec_and15 (r : ℕ) :
    rangeTableSpec r = rangeTableSpec (r &&& 0xF) := by
  unfold rangeTableSpec
  rw [and15_and15]

theorem PFSspec_and15 (r : ℕ) : PFSspec r = PFSspec (r &&& 0xF) := by
  unfold PFSspec
  rw [adsxRangeMultiplier_and15]

theorem NFSspec_and15 (r : ℕ) : NFSspec r = NFSspec (r &&& 0xF) := by
  unfold NFSspec
  rw [adsxRangeMultiplier_and15, PFSspec_and15]

theorem adsxCodeToVolts_and15 (r c : ℕ) :
    adsxCodeToVolts r c = adsxCodeToVolts (r &&& 0xF) c := by
  unfold adsxCodeToVolts
  rw [adsxRangeMultiplier_and15]

/-- Clamp-free form of the conversion on in-range codes. -/
theorem adsxCodeToVolts_formula (r c : ℕ) (h : c ≤ ADSX_CODE_MASK) :
    adsxCodeToVolts r c = f32add (NFSspec r) (f32mul (f32 (c : ℚ)) (LSBspec r)) := by
  have hc : (if c > ADSX_CODE_MASK then ADSX_CODE_MASK else c) = c :=
    if_neg (Nat.not_lt.mpr h)
  simp only [adsxCodeToVolts, PFSspec, NFSspec, FSRspec, LSBspec, hc]

/-- At code 0 the conversion returns the negative full scale. -/
theorem adsxCodeToVolts_zero (r : ℕ) : adsxCodeToVolts r 0 = NFSspec r := by
  have key : ∀ k : Fin 16, adsxCodeToVolts k.val 0 = NFSspec k.val := by decide
  rw [adsxCodeToVolts_and15, NFSspec_and15]
  exact key ⟨r &&& 0xF, and15_lt16 r⟩

/-- At the mask the conversion stays strictly below the positive full
scale. -/
theorem adsxCodeToVolts_mask_lt (r : ℕ) : adsxCodeToVolts r ADSX_CODE_MASK < PFSspec r := by
  have key : ∀ k : Fin 16, adsxCodeToVolts k.val ADSX_CODE_MASK < PFSspec k.val := by decide
  rw [adsxCodeToVolts_and15, PFSspec_and15]
  exact key ⟨r &&& 0xF, and15_lt16 r⟩

/-- C1: for every code in [0, ADSX_CODE_MASK] and every value of the range
selector global, `adsxCodeToVolts` equals `NFS + code * LSB` in
single-precision float arithmetic, where `PFS = multiplier * 4.096`,
`NFS = -PFS` if the range is bipolar and 0 otherwise, `FSR = PFS - NFS` and
`LSB = FSR / 2 ^ ADSX_BITS`; in particular the value at code 0 is `NFS`, the
value at the mask is `NFS + mask * LSB`, and that value is strictly less
than `PFS`. -/
theorem adsxCodeToVolts_spec (r code : ℕ) (h : code ≤ ADSX_CODE_MASK) :
    adsxCodeToVolts r code = f32add (NFSspec r) (f32mul (f32 (code : ℚ)) (LSBspec r))
    ∧ adsxCodeToVolts r 0 = NFSspec r
    ∧ adsxCodeToVolts r ADSX_CODE_MASK
        = f32add (NFSspec r) (f32mul (f32 ((ADSX_CODE_MASK : ℕ) : ℚ)) (LSBspec r))
    ∧ adsxCodeToVolts r ADSX_CODE_MASK < PFSspec r :=
  ⟨adsxCodeToVolts_formula r code h, adsxCodeToVolts_zero r,
   adsxCodeToVolts_formula r ADSX_CODE_MASK (Nat.le_refl _),
   adsxCodeToVolts_mask_lt r⟩

/-- Witness for C1 at the default selector (bipolar ±2.5×) and code 0. -/
theorem adsxCodeToVolts_spec_witness :
    adsxCodeToVolts 1 0 = f32add (NFSspec 1) (f32mul (f32 ((0 : ℕ) : ℚ)) (LSBspec 1))
    ∧ adsxCodeToVolts 1 0 = NFSspec 1
    ∧ adsxCodeToVolts 1 ADSX_CODE_MASK
        = f32add (NFSspec 1) (f32mul (f32 ((ADSX_CODE_MASK : ℕ) : ℚ)) (LSBspec 1))
    ∧ adsxCodeToVolts 1 ADSX_CODE_MASK < PFSspec 1 :=
  adsxCodeToVolts_spec 1 0 (by decide)

/-- C4: `adsxRangeMultiplier` is a total function realising the documented
table: the 9 defined selector codes map to their documented
(multiplier, isBipolar) pair and every other 4-bit value returns
(1.25, unipolar) rather than failing. -/
theorem adsxRangeMultiplier_total (c : ℕ) : adsxRangeMultiplier c = rangeTableSpec c := by
  have key : ∀ k : Fin 16, adsxRangeMultiplier k.val = rangeTableSpec k.val := by decide
  rw [adsxRangeMultiplier_and15, rangeTableSpec_and15]
  exact key ⟨c &&& 0xF, and15_lt16 c⟩

/-- C6: every input code strictly above `ADSX_CODE_MASK` is silently
clamped, never rejected: the conversion returns the same value as at the
mask. -/
theorem adsxCodeToVolts_saturates (r code : ℕ) (h : ADSX_CODE_MASK < code) :
    adsxCodeToVolts r code = adsxCodeToVolts r ADSX_CODE_MASK := by
  unfold adsxCodeToVolts
  rw [if_pos h, if_neg (lt_irrefl ADSX_CODE_MASK)]

/-- Witness for C6: code mask + 1000 collapses to the value at the mask. -/
theorem adsxCodeToVolts_saturates_witness :
    adsxCodeToVolts 1 (ADSX_CODE_MASK + 1000) = adsxCodeToVolts 1 ADSX_CODE_MASK :=
  adsxCodeToVolts_saturates 1 (ADSX_CODE_MASK + 1000) (by decide)

/-- C3: 18-bit round trip: applying the decode step to the raw frame
`code << 14` yields back exactly `code` for every code in [0, 0x3FFFF]. -/
theorem decodeStep_roundtrip (code : ℕ) (h : code ≤ ADSX_CODE_MASK) :
    decodeStep (code <<< ADSX_CODE_SHIFT) = code := by
  have h18 : code < 2 ^ 18 := by
    have hm : ADSX_CODE_MASK = 2 ^ 18 - 1 := rfl
    omega
  unfold decodeStep
  rw [Nat.shiftLeft_eq, Nat.shiftRight_eq_div_pow,
    Nat.mul_div_cancel _ (Nat.pos_pow_of_pos _ (by norm_num))]
  show code &&& (2 ^ 18 - 1) = code
  exact Nat.and_pow_two_sub_one_of_lt_two_pow h18

/-- Witness for C3 at a concrete 18-bit code. -/
theorem decodeStep_roundtrip_witness : decodeStep (0x2ABCD <<< ADSX_CODE_SHIFT) = 0x2ABCD :=
  decodeStep_roundtrip 0x2ABCD (by decide)

/-! ## Helper lemmas: machine model -/

/-- Closed form of one `xfer32` exchange. -/
theorem xfer32_char (env : Env) (b0 b1 b2 b3 : ℕ) (s : Mach) :
    xfer32 env b0 b1 b2 b3 s
      = (packedResp env s.nspi,
         { s with nspi := s.nspi + 4,
                  trace := s.trace ++ frameEvents env s.nspi b0 b1 b2 b3 }) := by
  simp [xfer32, spiTransfer, packedResp, frameEvents, List.append_assoc]

/-- Closed form of one NOP frame. -/
theorem frameNOP_char (env : Env) (s : Mach) :
    frameNOP env s
      = (packedResp env s.nspi,
         { s with nspi := s.nspi + 4,
                  trace := s.trace ++ frameEvents env s.nspi 0 0 0 0 }) :=
  xfer32_char env 0 0 0 0 s

theorem and255_eq_mod256 (n : ℕ) : n &&& 0xFF = n % 256 := by
  have h : (0xFF : ℕ) = 2 ^ 8 - 1 := rfl
  rw [h, Nat.and_pow_two_sub_one_eq_mod]

theorem mod65536_and15 (v : ℕ) : v % 2 ^ 16 &&& 0xF = v &&& 0xF := by
  rw [← Nat.and_pow_two_sub_one_eq_mod, Nat.and_assoc]
  have h : (2 ^ 16 - 1 &&& 15 : ℕ) = 15 := rfl
  rw [h]

/-- C8: `xfer32(b0,b1,b2,b3)` transfers the four bytes in that order inside
one chip-select framed exchange and returns the four received bytes packed
big-endian as `(r0 << 24) | (r1 << 16) | (r2 << 8) | r3`; `writeRegHWord
(addr, data)` issues exactly the 4-byte frame `[0xD0, addr, data >> 8,
data & 0xFF]` and discards the reply. -/
theorem xfer32_writeRegHWord_spec (env : Env) (b0 b1 b2 b3 addr data : ℕ) (s : Mach)
    (h0 : b0 < 256) (h1 : b1 < 256) (h2 : b2 < 256) (h3 : b3 < 256)
    (ha : addr < 256) (hd : data < 2 ^ 16) :
    (xfer32 env b0 b1 b2 b3 s).1
      = ((env.transfer s.nspi % 256) <<< 24) ||| ((env.transfer (s.nspi + 1) % 256) <<< 16)
          ||| ((env.transfer (s.nspi + 2) % 256) <<< 8) ||| (env.transfer (s.nspi + 3) % 256)
    ∧ (xfer32 env b0 b1 b2 b3 s).2.trace
      = s.trace ++ [Ev.csLow,
          Ev.transfer b0 (env.transfer s.nspi % 256),
          Ev.transfer b1 (env.transfer (s.nspi + 1) % 256),
          Ev.transfer b2 (env.transfer (s.nspi + 2) % 256),
          Ev.transfer b3 (env.transfer (s.nspi + 3) % 256), Ev.csHigh]
    ∧ writeRegHWord env addr data s
      = (xfer32 env 0xD0 addr (data >>> 8) (data &&& 0xFF) s).2 := by
  refine ⟨?_, ?_, ?_⟩
  · rw [xfer32_char]
    rfl
  · rw [xfer32_char]
    simp [frameEvents, Nat.mod_eq_of_lt h0, Nat.mod_eq_of_lt h1,
      Nat.mod_eq_of_lt h2, Nat.mod_eq_of_lt h3]
  · unfold writeRegHWord
    rw [Nat.mod_eq_of_lt hd, Nat.mod_eq_of_lt ha, and255_eq_mod256]

/-- Witness for C8 with the concrete environment `envW`, bytes
`0xA0 0xB1 0xC2 0xD3`, register 0x14, payload 0xBEEF, from the power-on
state. -/
theorem xfer32_writeRegHWord_spec_witness :
    (xfer32 envW 0xA0 0xB1 0xC2 0xD3 initMach).1
      = ((envW.transfer initMach.nspi % 256) <<< 24)
          ||| ((envW.transfer (initMach.nspi + 1) % 256) <<< 16)
          ||| ((envW.transfer (initMach.nspi + 2) % 256) <<< 8)
          ||| (envW.transfer (initMach.nspi + 3) % 256)
    ∧ (xfer32 envW 0xA0 0xB1 0xC2 0xD3 initMach).2.trace
      = initMach.trace ++ [Ev.csLow,
          Ev.transfer 0xA0 (envW.transfer initMach.nspi % 256),
          Ev.transfer 0xB1 (envW.transfer (initMach.nspi + 1) % 256),
          Ev.transfer 0xC2 (envW.transfer (initMach.nspi + 2) % 256),
          Ev.transfer 0xD3 (envW.transfer (initMach.nspi + 3) % 256), Ev.csHigh]
    ∧ writeRegHWord envW 0x14 0xBEEF initMach
      = (xfer32 envW 0xD0 0x14 (0xBEEF >>> 8) (0xBEEF &&& 0xFF) initMach).2 :=
  xfer32_writeRegHWord_spec envW 0xA0 0xB1 0xC2 0xD3 0x14 0xBEEF initMach
    (by decide) (by decide) (by decide) (by decide) (by decide) (by decide)

/-- C5: `adsxConfigureBasic` performs exactly 3 chip-select framed SPI
exchanges, in this order and regardless of how long the ready-wait spins:
a write-register frame to register 0x14 carrying `ADSX_INTREF_ENABLE`
OR'd with the low 4 bits of the selector, a no-op frame starting the first
conversion, then — after the RVS busy-wait, which contributes no SPI
activity — one more no-op frame reading and discarding the first result. -/
theorem adsxConfigureBasic_spec (env : Env) (v : ℕ) (s : Mach) :
    (adsxConfigureBasic env v s).trace
      = s.trace
        ++ frameEvents env s.nspi 0xD0 ADSX_REG_RANGE_SEL
            ((ADSX_INTREF_ENABLE ||| (v &&& 0x0F)) >>> 8)
            ((ADSX_INTREF_ENABLE ||| (v &&& 0x0F)) &&& 0xFF)
        ++ frameEvents env (s.nspi + 4) 0 0 0 0
        ++ [Ev.waitReady (env.readyAfter s.nwait)]
        ++ frameEvents env (s.nspi + 8) 0 0 0 0 := by
  have hz : ADSX_INTREF_ENABLE ||| (v &&& 0x0F) = v &&& 0x0F := Nat.zero_or _
  have hp : ADSX_INTREF_ENABLE ||| (v &&& 0x0F) < 2 ^ 16 := by
    have h2 : v &&& 0x0F ≤ 0x0F := Nat.and_le_right
    omega
  have ha : ADSX_REG_RANGE_SEL % 256 = ADSX_REG_RANGE_SEL := rfl
  unfold adsxConfigureBasic writeRegHWord
  rw [mod65536_and15, Nat.mod_eq_of_lt hp, ha, and255_eq_mod256]
  simp [xfer32_char, frameNOP_char, waitReady, List.append_assoc]

/-- C10: the high 12 bits of the range selector are ignored at the public
interface: the multiplier lookup agrees on `c` and `c & 0xF`, and the whole
configuration routine behaves identically on `v` and `v & 0xF` (it writes
only the low 4 bits of the selector into the register payload). -/
theorem selector_high_bits_ignored (env : Env) (c v : ℕ) (s : Mach) :
    adsxRangeMultiplier c = adsxRangeMultiplier (c &&& 0xF)
    ∧ adsxConfigureBasic env v s = adsxConfigureBasic env (v &&& 0xF) s := by
  refine ⟨adsxRangeMultiplier_and15 c, ?_⟩
  unfold adsxConfigureBasic
  rw [mod65536_and15, mod65536_and15, and15_and15]

theorem getD_set_ne (l : List ℕ) (i j v : ℕ) (h : i ≠ j) :
    (l.set i v).getD j 0 = l.getD j 0 := by
  simp [List.getD_eq_getElem?_getD, List.getElem?_set_ne h]

theorem getD_set_self (l : List ℕ) (i v : ℕ) (h : i < l.length) :
    (l.set i v).getD i 0 = v := by
  simp [List.getD_eq_getElem?_getD, List.getElem?_set_self h]

/-- Closed form of one capture-loop iteration (wait, NOP frame, store),
when the store index is in bounds. -/
theorem captureIter_char (env : Env) (i : ℕ) (s : Mach) (h : i < s.samples.length) :
    storeSample (frameNOP env (waitReady env s)).2 i (frameNOP env (waitReady env s)).1
      = { s with
          samples := s.samples.set i (packedResp env s.nspi),
          nspi := s.nspi + 4,
          nwait := s.nwait + 1,
          trace := s.trace
            ++ ([Ev.waitReady (env.readyAfter s.nwait)] ++ frameEvents env s.nspi 0 0 0 0) } := by
  simp [storeSample, frameNOP_char, waitReady, h, List.append_assoc]

/-- Full characterisation of the capture loop under the in-bounds
precondition: counters, trace, overflow flag and buffer contents. -/
theorem captureLoop_char (env : Env) (n : ℕ) :
    ∀ (i : ℕ) (s : Mach), i + n ≤ s.samples.length →
      (captureLoop env n i s).samples.length = s.samples.length
      ∧ (captureLoop env n i s).nspi = s.nspi + 4 * n
      ∧ (captureLoop env n i s).nclk = s.nclk
      ∧ (captureLoop env n i s).nwait = s.nwait + n
      ∧ (captureLoop env n i s).trace = s.trace ++ captureLoopTrace env s.nspi s.nwait n
      ∧ (captureLoop env n i s).oob = s.oob
      ∧ (∀ j, j < i ∨ i + n ≤ j → (captureLoop env n i s).samples.getD j 0 = s.samples.getD j 0)
      ∧ (∀ j, i ≤ j → j < i + n →
          (captureLoop env n i s).samples.getD j 0 = packedResp env (s.nspi + 4 * (j - i))) := by
  induction n with
  | zero =>
    intro i s _
    refine ⟨rfl, by show s.nspi = s.nspi + 4 * 0; omega, rfl,
      by show s.nwait = s.nwait + 0; omega,
      by simp [captureLoop, captureLoopTrace], rfl, fun j _ => rfl,
      fun j hj1 hj2 => absurd hj2 (by omega)⟩
  | succ n ih =>
    intro i s hle
    have hi : i < s.samples.length := by omega
    simp only [captureLoop]
    rw [captureIter_char env i s hi]
    have R := ih (i + 1)
      ⟨s.samples.set i (packedResp env s.nspi), s.nspi + 4, s.nclk, s.nwait + 1,
       s.trace ++ ([Ev.waitReady (env.readyAfter s.nwait)] ++ frameEvents env s.nspi 0 0 0 0),
       s.oob⟩
      (by simpa using (by omega : i + 1 + n ≤ s.samples.length))
    obtain ⟨L, SPI, CLK, W, T, OOB, PRES, STORE⟩ := R
    dsimp only at L SPI CLK W T OOB PRES STORE
    refine ⟨?_, ?_, ?_, ?_, ?_, ?_, ?_, ?_⟩
    · rw [L, List.length_set]
    · rw [SPI]
      omega
    · exact CLK
    · rw [W]
      omega
    · rw [T]
      simp [captureLoopTrace, List.append_assoc]
    · exact OOB
    · intro j hj
      rw [PRES j (by omega),
        getD_set_ne s.samples i j (packedResp env s.nspi) (by omega)]
    · intro j hj1 hj2
      rcases Nat.eq_or_lt_of_le hj1 with heq | hgt
      · subst heq
        rw [PRES i (Or.inl (by omega)),
          getD_set_self s.samples i (packedResp env s.nspi) hi]
        have h0 : 4 * (i - i) = 0 := by omega
        rw [h0, Nat.add_zero]
      · rw [STORE j (by omega) (by omega)]
        have harith : s.nspi + 4 + 4 * (j - (i + 1)) = s.nspi + 4 * (j - i) := by omega
        rw [harith]

/-- C2: `capture_fast(N)` stores exactly N raw frames at positions 0..N-1
in the order the SPI exchanges were issued (sample i is the reply to the
(i+1)-th NOP frame, frame 0 being the initial start-conversion frame),
leaves the rest of the buffer untouched, and returns the uint32 difference
between the clock reading taken after the N-exchange loop and the reading
taken after the initial frame and the first ready-wait but before the loop;
the trace shows the two readings bracket exactly the N capture exchanges. -/
theorem capture_fast_spec (env : Env) (N : ℕ) (s : Mach) (h : N ≤ s.samples.length) :
    (capture_fast env N s).2.samples.length = s.samples.length
    ∧ (∀ i, i < N → (capture_fast env N s).2.samples.getD i 0
        = packedResp env (s.nspi + 4 * (1 + i)))
    ∧ (∀ i, N ≤ i → (capture_fast env N s).2.samples.getD i 0 = s.samples.getD i 0)
    ∧ (capture_fast env N s).1
      = (env.micros (s.nclk + 1) % 2 ^ 32 + (2 ^ 32 - env.micros s.nclk % 2 ^ 32)) % 2 ^ 32
    ∧ (capture_fast env N s).2.trace
      = s.trace
        ++ frameEvents env s.nspi 0 0 0 0
        ++ [Ev.waitReady (env.readyAfter s.nwait)]
        ++ [Ev.clock (env.micros s.nclk % 2 ^ 32)]
        ++ captureLoopTrace env (s.nspi + 4) (s.nwait + 1) N
        ++ [Ev.clock (env.micros (s.nclk + 1) % 2 ^ 32)] := by
  obtain ⟨L, SPI, CLK, W, T, OOB, PRES, STORE⟩ :=
    captureLoop_char env N 0
      ⟨s.samples, s.nspi + 4, s.nclk + 1, s.nwait + 1,
       s.trace ++ frameEvents env s.nspi 0 0 0 0 ++ [Ev.waitReady (env.readyAfter s.nwait)]
         ++ [Ev.clock (env.micros s.nclk % 2 ^ 32)], s.oob⟩
      (by simpa using h)
  dsimp only at L SPI CLK W T OOB PRES STORE
  simp only [capture_fast, frameNOP_char, waitReady, microsRead]
  refine ⟨L, ?_, ?_, ?_, ?_⟩
  · intro i hi
    rw [STORE i (by omega) (by omega)]
    congr 1
    omega
  · intro i hi
    exact PRES i (Or.inr (by omega))
  · rw [CLK]
  · rw [T, CLK]

/-- Witness for C2: two samples, concrete environment, power-on state. -/
theorem capture_fast_spec_witness :
    (capture_fast envW 2 initMach).2.samples.length = initMach.samples.length
    ∧ (∀ i, i < 2 → (capture_fast envW 2 initMach).2.samples.getD i 0
        = packedResp envW (initMach.nspi + 4 * (1 + i)))
    ∧ (∀ i, 2 ≤ i → (capture_fast envW 2 initMach).2.samples.getD i 0
        = initMach.samples.getD i 0)
    ∧ (capture_fast envW 2 initMach).1
      = (envW.micros (initMach.nclk + 1) % 2 ^ 32
          + (2 ^ 32 - envW.micros initMach.nclk % 2 ^ 32)) % 2 ^ 32
    ∧ (capture_fast envW 2 initMach).2.trace
      = initMach.trace
        ++ frameEvents envW initMach.nspi 0 0 0 0
        ++ [Ev.waitReady (envW.readyAfter initMach.nwait)]
        ++ [Ev.clock (envW.micros initMach.nclk % 2 ^ 32)]
        ++ captureLoopTrace envW (initMach.nspi + 4) (initMach.nwait + 1) 2
        ++ [Ev.clock (envW.micros (initMach.nclk + 1) % 2 ^ 32)] :=
  capture_fast_spec envW 2 initMach (by simp [initMach, SAMPLE_COUNT])

/-- Closed form of one decode-loop iteration when the index is in bounds. -/
theorem decodeIter_char (i : ℕ) (s : Mach) (h : i < s.samples.length) :
    storeSample s i (decodeStep (s.samples.getD i 0))
      = { s with samples := s.samples.set i (decodeStep (s.samples.getD i 0)) } := by
  simp [storeSample, h]

/-- Full characterisation of the decode loop under the in-bounds
precondition: no I/O, no overflow, and each visited entry replaced by its
decoded value. -/
theorem decodeLoop_char (n : ℕ) :
    ∀ (i : ℕ) (s : Mach), i + n ≤ s.samples.length →
      (decodeLoop n i s).samples.length = s.samples.length
      ∧ (decodeLoop n i s).nspi = s.nspi
      ∧ (decodeLoop n i s).nclk = s.nclk
      ∧ (decodeLoop n i s).nwait = s.nwait
      ∧ (decodeLoop n i s).trace = s.trace
      ∧ (decodeLoop n i s).oob = s.oob
      ∧ (∀ j, j < i ∨ i + n ≤ j → (decodeLoop n i s).samples.getD j 0 = s.samples.getD j 0)
      ∧ (∀ j, i ≤ j → j < i + n →
          (decodeLoop n i s).samples.getD j 0 = decodeStep (s.samples.getD j 0)) := by
  induction n with
  | zero =>
    intro i s _
    exact ⟨rfl, rfl, rfl, rfl, rfl, rfl, fun j _ => rfl,
      fun j hj1 hj2 => absurd hj2 (by omega)⟩
  | succ n ih =>
    intro i s hle
    have hi : i < s.samples.length := by omega
    simp only [decodeLoop]
    rw [decodeIter_char i s hi]
    have R := ih (i + 1)
      ⟨s.samples.set i (decodeStep (s.samples.getD i 0)), s.nspi, s.nclk, s.nwait,
       s.trace, s.oob⟩
      (by simpa using (by omega : i + 1 + n ≤ s.samples.length))
    obtain ⟨L, SPI, CLK, W, T, OOB, PRES, STORE⟩ := R
    dsimp only at L SPI CLK W T OOB PRES STORE
    refine ⟨by rw [L, List.length_set], SPI, CLK, W, T, OOB, ?_, ?_⟩
    · intro j hj
      rw [PRES j (by omega),
        getD_set_ne s.samples i j (decodeStep (s.samples.getD i 0)) (by omega)]
    · intro j hj1 hj2
      rcases Nat.eq_or_lt_of_le hj1 with heq | hgt
      · subst heq
        rw [PRES i (Or.inl (by omega)),
          getD_set_self s.samples i (decodeStep (s.samples.getD i 0)) hi]
      · rw [STORE j (by omega) (by omega),
          getD_set_ne s.samples i j (decodeStep (s.samples.getD i 0)) (by omega)]

/-- The decode step depends only on bits
[ADSX_CODE_SHIFT, ADSX_CODE_SHIFT + ADSX_BITS) of the raw frame. -/
theorem decodeStep_congr (a b : ℕ)
    (h : ∀ j, ADSX_CODE_SHIFT ≤ j → j < ADSX_CODE_SHIFT + ADSX_BITS →
      a.testBit j = b.testBit j) :
    decodeStep a = decodeStep b := by
  have hs : ADSX_CODE_SHIFT = 14 := rfl
  have hb : ADSX_BITS = 18 := rfl
  have hm : ADSX_CODE_MASK = 2 ^ 18 - 1 := rfl
  rw [hs, hb] at h
  unfold decodeStep
  rw [hs, hm]
  apply Nat.eq_of_testBit_eq
  intro i
  rw [Nat.testBit_and, Nat.testBit_and, Nat.testBit_shiftRight, Nat.testBit_shiftRight,
    Nat.testBit_two_pow_sub_one]
  by_cases hi : i < 18
  · rw [h (14 + i) (by omega) (by omega)]
  · simp [hi]

/-- C7: one application of `decode_samples_in_place(N)` replaces each of
the first N buffer entries by its old value right-shifted by
`ADSX_CODE_SHIFT` and AND'ed with `ADSX_CODE_MASK` — hence a value in
[0, ADSX_CODE_MASK] — and any two raw frames whose bits in
[shift, shift + width) agree decode to identical codes. -/
theorem decode_samples_in_place_spec (N : ℕ) (s : Mach) (h : N ≤ s.samples.length) :
    (∀ i, i < N → (decode_samples_in_place N s).samples.getD i 0
        = decodeStep (s.samples.getD i 0))
    ∧ (∀ i, i < N → (decode_samples_in_place N s).samples.getD i 0 ≤ ADSX_CODE_MASK)
    ∧ (∀ a b : ℕ, (∀ j, ADSX_CODE_SHIFT ≤ j → j < ADSX_CODE_SHIFT + ADSX_BITS →
        a.testBit j = b.testBit j) → decodeStep a = decodeStep b) := by
  obtain ⟨L, SPI, CLK, W, T, OOB, PRES, STORE⟩ := decodeLoop_char N 0 s (by omega)
  refine ⟨?_, ?_, decodeStep_congr⟩
  · intro i hi
    exact STORE i (by omega) (by omega)
  · intro i hi
    show (decodeLoop N 0 s).samples.getD i 0 ≤ ADSX_CODE_MASK
    rw [STORE i (by omega) (by omega)]
    exact Nat.and_le_right

/-- Witness for C7: decode two entries of the power-on buffer. -/
theorem decode_samples_in_place_spec_witness :
    (∀ i, i < 2 → (decode_samples_in_place 2 initMach).samples.getD i 0
        = decodeStep (initMach.samples.getD i 0))
    ∧ (∀ i, i < 2 → (decode_samples_in_place 2 initMach).samples.getD i 0 ≤ ADSX_CODE_MASK)
    ∧ (∀ a b : ℕ, (∀ j, ADSX_CODE_SHIFT ≤ j → j < ADSX_CODE_SHIFT + ADSX_BITS →
        a.testBit j = b.testBit j) → decodeStep a = decodeStep b) :=
  decode_samples_in_place_spec 2 initMach (by simp [initMach, SAMPLE_COUNT])

/-- C9: under the precondition `N ≤ SAMPLE_COUNT` (the buffer capacity,
256), every buffer access performed by `capture_fast(N)` and by
`decode_samples_in_place(N)` is in bounds: the out-of-bounds branch of the
embedded indexing is never taken, so the overflow flag is exactly
preserved. -/
theorem capture_decode_inbounds (env : Env) (N : ℕ) (s : Mach)
    (hN : N ≤ SAMPLE_COUNT) (hlen : s.samples.length = SAMPLE_COUNT) :
    (capture_fast env N s).2.oob = s.oob
    ∧ (decode_samples_in_place N s).oob = s.oob := by
  constructor
  · obtain ⟨L, SPI, CLK, W, T, OOB, PRES, STORE⟩ :=
      captureLoop_char env N 0
        ⟨s.samples, s.nspi + 4, s.nclk + 1, s.nwait + 1,
         s.trace ++ frameEvents env s.nspi 0 0 0 0 ++ [Ev.waitReady (env.readyAfter s.nwait)]
           ++ [Ev.clock (env.micros s.nclk % 2 ^ 32)], s.oob⟩
        (by simpa using (by omega : N ≤ s.samples.length))
    dsimp only at OOB
    simp only [capture_fast, frameNOP_char, waitReady, microsRead]
    exact OOB
  · obtain ⟨L, SPI, CLK, W, T, OOB, PRES, STORE⟩ := decodeLoop_char N 0 s (by omega)
    exact OOB

/-- Witness for C9: a 2-sample capture and decode from the power-on state
preserve the (cleared) overflow flag. -/
theorem capture_decode_inbounds_witness :
    (capture_fast envW 2 initMach).2.oob = initMach.oob
    ∧ (decode_samples_in_place 2 initMach).oob = initMach.oob :=
  capture_decode_inbounds envW 2 initMach (by decide) (by simp [initMach])

